import Mathlib

/-!
# Verification of the `euui` crate

A shallow embedding of the `Euui` 512-bit identifier type (`src/lib.rs`,
`src/uuid.rs`, `src/random.rs`) and proofs of its specified properties.

Machine integers are embedded as `Nat`: a `u128` value is a `Nat` below
`2 ^ 128`, a `u64` value a `Nat` below `2 ^ 64`, a `u8` value (byte) a
`Nat` below `256`.  Byte and word arrays are `List Nat` of the stated
length.  Fallible operations return `Option`; the one panicking operation
(`with_uuid_part`) is embedded with `none` standing for the panic.
-/

/-- Big-endian base-256 digit expansion on `n` bytes, most significant
byte first: the embedding of `uN::to_be_bytes` (values are taken
modulo `256 ^ n`, which is the identity on genuine `uN` values). -/
def beBytes : Nat → Nat → List Nat
  | 0, _ => []
  | n + 1, x => beBytes n (x / 256) ++ [x % 256]

/-- Big-endian base-256 recomposition of a byte list: the embedding of
`uN::from_be_bytes`. -/
def fromBeBytes (bs : List Nat) : Nat :=
  bs.foldl (fun acc b => acc * 256 + b) 0

theorem beBytes_length (n x : Nat) : (beBytes n x).length = n := by
  induction n generalizing x with
  | zero => rfl
  | succ n ih => simp [beBytes, ih]

theorem beBytes_lt (n x : Nat) : ∀ b ∈ beBytes n x, b < 256 := by
  induction n generalizing x with
  | zero => simp [beBytes]
  | succ n ih =>
    intro b hb
    simp only [beBytes, List.mem_append, List.mem_singleton] at hb
    rcases hb with hb | hb
    · exact ih _ b hb
    · subst hb; exact Nat.mod_lt _ (by omega)

theorem fromBeBytes_append_singleton (l : List Nat) (b : Nat) :
    fromBeBytes (l ++ [b]) = fromBeBytes l * 256 + b := by
  simp [fromBeBytes, List.foldl_append]

/-- Decomposing then recomposing is the identity on values that fit. -/
theorem fromBeBytes_beBytes (n x : Nat) (hx : x < 256 ^ n) :
    fromBeBytes (beBytes n x) = x := by
  induction n generalizing x with
  | zero =>
    interval_cases x
    rfl
  | succ n ih =>
    have hdiv : x / 256 < 256 ^ n := by
      rw [Nat.div_lt_iff_lt_mul (by omega)]
      calc x < 256 ^ (n + 1) := hx
        _ = 256 ^ n * 256 := by rw [Nat.pow_succ]
    rw [beBytes, fromBeBytes_append_singleton, ih _ hdiv]
    omega

/-- Recomposing then decomposing is the identity on genuine byte lists. -/
theorem beBytes_fromBeBytes (bs : List Nat) (hb : ∀ b ∈ bs, b < 256) :
    beBytes bs.length (fromBeBytes bs) = bs := by
  induction bs using List.reverseRecOn with
  | nil => rfl
  | append_singleton l b ih =>
    have hblt : b < 256 := hb b (by simp)
    have hX : fromBeBytes (l ++ [b]) = fromBeBytes l * 256 + b :=
      fromBeBytes_append_singleton l b
    have hdiv : fromBeBytes (l ++ [b]) / 256 = fromBeBytes l := by
      rw [hX]; omega
    have hmod : fromBeBytes (l ++ [b]) % 256 = b := by
      rw [hX, Nat.add_comm, Nat.add_mul_mod_self_right]
      exact Nat.mod_eq_of_lt hblt
    have hlen : (l ++ [b]).length = l.length + 1 := by simp
    rw [hlen, beBytes, hdiv, hmod, ih (fun d hd => hb d (by simp [hd]))]

/-- Recomposition of a genuine byte list fits in its width. -/
theorem fromBeBytes_lt (bs : List Nat) (hb : ∀ b ∈ bs, b < 256) :
    fromBeBytes bs < 256 ^ bs.length := by
  induction bs using List.reverseRecOn with
  | nil => simp [fromBeBytes]
  | append_singleton l b ih =>
    have hblt : b < 256 := hb b (by simp)
    have hl : fromBeBytes l < 256 ^ l.length := ih fun d hd => hb d (by simp [hd])
    rw [fromBeBytes_append_singleton]
    have : (l ++ [b]).length = l.length + 1 := by simp
    rw [this, Nat.pow_succ]
    omega

/-- Fixed-width big-endian lowercase hexadecimal rendering, most
significant digit first: the embedding of the Rust format specifier
`{x:0<width>x}` for values that fit in `width` hex digits (as every
`u128` fits in 32). -/
def hexChars : Nat → Nat → List Char
  | 0, _ => []
  | n + 1, x => hexChars n (x / 16) ++ [Nat.digitChar (x % 16)]

theorem hexChars_length (n x : Nat) : (hexChars n x).length = n := by
  induction n generalizing x with
  | zero => rfl
  | succ n ih => simp [hexChars, ih]

/-- The lowercase hexadecimal alphabet: the 16 digit characters
`0 .. 9, a .. f`. -/
def lowerHexDigits : List Char :=
  (List.range 16).map Nat.digitChar

theorem digitChar_mem_lowerHexDigits (d : Nat) (hd : d < 16) :
    Nat.digitChar d ∈ lowerHexDigits :=
  List.mem_map.mpr ⟨d, List.mem_range.mpr hd, rfl⟩

theorem hexChars_mem (n x : Nat) : ∀ c ∈ hexChars n x, c ∈ lowerHexDigits := by
  induction n generalizing x with
  | zero => simp [hexChars]
  | succ n ih =>
    intro c hc
    simp only [hexChars, List.mem_append, List.mem_singleton] at hc
    rcases hc with hc | hc
    · exact ih _ c hc
    · subst hc; exact digitChar_mem_lowerHexDigits _ (Nat.mod_lt _ (by omega))

/-! ## The `Euui` type (`src/lib.rs`)

`pub struct Euui([u128; 4]);` — a value holding four `u128` segments.
The inner array is embedded as four named fields `g0 .. g3`
(`gi` is `self.0[i]`). -/

structure Euui where
  g0 : Nat
  g1 : Nat
  g2 : Nat
  g3 : Nat
deriving DecidableEq

/-- Array indexing `self.0[i]` on the segment array (the source only
applies it to indices `0 ≤ i ≤ 3`). -/
def Euui.seg (e : Euui) : Nat → Nat
  | 0 => e.g0
  | 1 => e.g1
  | 2 => e.g2
  | _ => e.g3

/-- A `Euui` whose segments are genuine `u128` values, as every value of
the Rust type is. -/
def Euui.Valid (e : Euui) : Prop :=
  e.g0 < 2 ^ 128 ∧ e.g1 < 2 ^ 128 ∧ e.g2 < 2 ^ 128 ∧ e.g3 < 2 ^ 128

instance (e : Euui) : Decidable e.Valid := by
  unfold Euui.Valid; infer_instance

/-- `Euui::zero` — `Self([0, 0, 0, 0])`. -/
def Euui.zero : Euui := ⟨0, 0, 0, 0⟩

/-- `Euui::from_be_guids(guids: [u128; 4])` — `Self(guids)`. -/
def Euui.from_be_guids (a b c d : Nat) : Euui := ⟨a, b, c, d⟩

/-- `Euui::from_be_bytes(bytes: [u8; 64])` — each 16-byte chunk
`bytes[i*16..(i+1)*16]` decoded with `u128::from_be_bytes`. -/
def Euui.from_be_bytes (bytes : List Nat) : Euui :=
  ⟨fromBeBytes ((bytes.drop (0 * 16)).take 16),
   fromBeBytes ((bytes.drop (1 * 16)).take 16),
   fromBeBytes ((bytes.drop (2 * 16)).take 16),
   fromBeBytes ((bytes.drop (3 * 16)).take 16)⟩

/-- `Euui::from_be_longs(bytes: [u64; 8])` — for each `i` in `0..4`,
the 16-byte buffer `bytes[i*2].to_be_bytes() ++ bytes[i*2+1].to_be_bytes()`
decoded with `u128::from_be_bytes`. -/
def Euui.from_be_longs (ws : List Nat) : Euui :=
  ⟨fromBeBytes (beBytes 8 (ws.getD (0 * 2) 0) ++ beBytes 8 (ws.getD (0 * 2 + 1) 0)),
   fromBeBytes (beBytes 8 (ws.getD (1 * 2) 0) ++ beBytes 8 (ws.getD (1 * 2 + 1) 0)),
   fromBeBytes (beBytes 8 (ws.getD (2 * 2) 0) ++ beBytes 8 (ws.getD (2 * 2 + 1) 0)),
   fromBeBytes (beBytes 8 (ws.getD (3 * 2) 0) ++ beBytes 8 (ws.getD (3 * 2 + 1) 0))⟩

/-- `Euui::u128(index)` — `None` when `index >= self.0.len()` (where
`self.0.len() = 4`), otherwise `Some(self.0[index])`. -/
def Euui.u128 (e : Euui) (index : Nat) : Option Nat :=
  if index ≥ 4 then none else some (e.seg index)

/-- `Euui::to_be_bytes()` — the four segments' `u128::to_be_bytes`
written contiguously into the 64-byte buffer. -/
def Euui.to_be_bytes (e : Euui) : List Nat :=
  beBytes 16 e.g0 ++ beBytes 16 e.g1 ++ beBytes 16 e.g2 ++ beBytes 16 e.g3

/-- `Euui::u64(index)` — `None` when `index >= self.0.len() * 2`,
otherwise bytes `[index*8, index*8+8)` of `to_be_bytes()` decoded with
`u64::from_be_bytes`. -/
def Euui.u64 (e : Euui) (index : Nat) : Option Nat :=
  if index ≥ 4 * 2 then none
  else some (fromBeBytes ((e.to_be_bytes.drop (index * 8)).take 8))

/-- `Euui::u8(index)` — `None` when `index >= self.0.len() * 16`,
otherwise byte `index % 16` of `self.u128(index / 16).unwrap().to_be_bytes()`
(the `unwrap` and the array indexing are embedded with `getD`; both are
in range whenever the guard passes). -/
def Euui.u8 (e : Euui) (index : Nat) : Option Nat :=
  if index ≥ 4 * 16 then none
  else some ((beBytes 16 ((e.u128 (index / 16)).getD 0)).getD (index % 16) 0)

/-- `Euui::to_be_longs()` — for each segment, bytes `[0,8)` and `[8,16)`
of its `u128::to_be_bytes` decoded with `u64::from_be_bytes`. -/
def Euui.to_be_longs (e : Euui) : List Nat :=
  [fromBeBytes ((beBytes 16 e.g0).take 8), fromBeBytes ((beBytes 16 e.g0).drop 8),
   fromBeBytes ((beBytes 16 e.g1).take 8), fromBeBytes ((beBytes 16 e.g1).drop 8),
   fromBeBytes ((beBytes 16 e.g2).take 8), fromBeBytes ((beBytes 16 e.g2).drop 8),
   fromBeBytes ((beBytes 16 e.g3).take 8), fromBeBytes ((beBytes 16 e.g3).drop 8)]

/-- `Euui::to_be_guids()` — the raw segment array `self.0`. -/
def Euui.to_be_guids (e : Euui) : List Nat :=
  [e.g0, e.g1, e.g2, e.g3]

/-- `Euui::format()` —
`format!("{:032x}-{:032x}\n{:032x}-{:032x}", self.0[0], self.0[1], self.0[2], self.0[3])`. -/
def Euui.format (e : Euui) : String :=
  String.mk (hexChars 32 e.g0) ++ "-" ++ String.mk (hexChars 32 e.g1) ++ "\n"
    ++ String.mk (hexChars 32 e.g2) ++ "-" ++ String.mk (hexChars 32 e.g3)

/-- `<Euui as Display>::fmt` (hence `to_string()`) —
`write!(f, "{:032x}{:032x}{:032x}{:032x}", self.0[0], self.0[1], self.0[2], self.0[3])`. -/
def Euui.toString (e : Euui) : String :=
  String.mk (hexChars 32 e.g0) ++ String.mk (hexChars 32 e.g1)
    ++ String.mk (hexChars 32 e.g2) ++ String.mk (hexChars 32 e.g3)

/-! ## UUID interop (`src/uuid.rs`)

The external collaborator `uuid::Uuid` is, for everything this crate
uses of it, a value convertible to and from a 128-bit integer
(`Uuid::from_u128` / `Uuid::as_u128`); it is embedded as a wrapper
around that integer. -/

structure Uuid where
  val : Nat
deriving DecidableEq

/-- `Uuid::from_u128`. -/
def Uuid.from_u128 (x : Nat) : Uuid := ⟨x⟩

/-- `Uuid::as_u128`. -/
def Uuid.as_u128 (u : Uuid) : Nat := u.val

/-- The array update `guids[part] = uuid.as_u128()` inside
`with_uuid_part` (the source only reaches it with `part ≤ 3`). -/
def Euui.setSeg (e : Euui) (part : Nat) (v : Nat) : Euui :=
  match part with
  | 0 => ⟨v, e.g1, e.g2, e.g3⟩
  | 1 => ⟨e.g0, v, e.g2, e.g3⟩
  | 2 => ⟨e.g0, e.g1, v, e.g3⟩
  | _ => ⟨e.g0, e.g1, e.g2, v⟩

/-- `Euui::with_uuid_part(uuid, part)` — panics (`none`) when
`part > 3`, otherwise returns a copy of the segment array with entry
`part` replaced by `uuid.as_u128()`. -/
def Euui.with_uuid_part (e : Euui) (uuid : Uuid) (part : Nat) : Option Euui :=
  if part > 3 then none
  else some (e.setSeg part uuid.as_u128)

/-- `Euui::with_first(uuid)` — `self.with_uuid_part(uuid, 0)`. -/
def Euui.with_first (e : Euui) (uuid : Uuid) : Option Euui :=
  e.with_uuid_part uuid 0

/-- `Euui::with_second(uuid)` — `self.with_uuid_part(uuid, 1)`. -/
def Euui.with_second (e : Euui) (uuid : Uuid) : Option Euui :=
  e.with_uuid_part uuid 1

/-- `Euui::with_third(uuid)` — `self.with_uuid_part(uuid, 2)`. -/
def Euui.with_third (e : Euui) (uuid : Uuid) : Option Euui :=
  e.with_uuid_part uuid 2

/-- `Euui::with_fourth(uuid)` — `self.with_uuid_part(uuid, 3)`. -/
def Euui.with_fourth (e : Euui) (uuid : Uuid) : Option Euui :=
  e.with_uuid_part uuid 3

/-- `Euui::from_uuids(uuids: [Uuid; 4])`. -/
def Euui.from_uuids (u0 u1 u2 u3 : Uuid) : Euui :=
  ⟨u0.as_u128, u1.as_u128, u2.as_u128, u3.as_u128⟩

/-- `Euui::uuid(index)` — `self.u128(index).map(Uuid::from_u128)`. -/
def Euui.uuid (e : Euui) (index : Nat) : Option Uuid :=
  (e.u128 index).map Uuid.from_u128

/-! ## Random generation (`src/random.rs`)

The external random source (`rand::random`) is an injected collaborator;
each call to it is embedded as an explicit `Nat` parameter holding the
value the source returned. -/

/-- `Euui::random()` with the four drawn values `r0 .. r3`. -/
def Euui.random (r0 r1 r2 r3 : Nat) : Euui := ⟨r0, r1, r2, r3⟩

/-- `Euui::random_from_first(first)` with drawn values `r1 r2 r3`. -/
def Euui.random_from_first (first : Nat) (r1 r2 r3 : Nat) : Euui :=
  ⟨first, r1, r2, r3⟩

/-- `Euui::random_from_second(second)` with drawn values `r0 r2 r3`. -/
def Euui.random_from_second (second : Nat) (r0 r2 r3 : Nat) : Euui :=
  ⟨r0, second, r2, r3⟩

/-- `Euui::random_from_third(third)` with drawn values `r0 r1 r3`. -/
def Euui.random_from_third (third : Nat) (r0 r1 r3 : Nat) : Euui :=
  ⟨r0, r1, third, r3⟩

/-- `Euui::random_from_fourth(fourth)` with drawn values `r0 r1 r2`. -/
def Euui.random_from_fourth (fourth : Nat) (r0 r1 r2 : Nat) : Euui :=
  ⟨r0, r1, r2, fourth⟩

/-- `Euui::regenerate_first()` with the freshly drawn value `r` —
`Self([random(), self.0[1], self.0[2], self.0[3]])`. -/
def Euui.regenerate_first (e : Euui) (r : Nat) : Euui :=
  ⟨r, e.g1, e.g2, e.g3⟩

/-- `Euui::regenerate_second()` with the freshly drawn value `r`. -/
def Euui.regenerate_second (e : Euui) (r : Nat) : Euui :=
  ⟨e.g0, r, e.g2, e.g3⟩

/-- `Euui::regenerate_third()` with the freshly drawn value `r`. -/
def Euui.regenerate_third (e : Euui) (r : Nat) : Euui :=
  ⟨e.g0, e.g1, r, e.g3⟩

/-- `Euui::regenerate_fourth()` with the freshly drawn value `r`. -/
def Euui.regenerate_fourth (e : Euui) (r : Nat) : Euui :=
  ⟨e.g0, e.g1, e.g2, r⟩

/-! ## List slicing helpers -/

theorem take_append_of_length_eq {α : Type} (l₁ l₂ : List α) (n : Nat)
    (h : l₁.length = n) : (l₁ ++ l₂).take n = l₁ := by
  subst h; exact List.take_left l₁ l₂

theorem drop_append_of_length_eq {α : Type} (l₁ l₂ : List α) (n : Nat)
    (h : l₁.length = n) : (l₁ ++ l₂).drop n = l₂ := by
  subst h; exact List.drop_left l₁ l₂

theorem take_append_of_le_length {α : Type} (l₁ l₂ : List α) (n : Nat)
    (h : n ≤ l₁.length) : (l₁ ++ l₂).take n = l₁.take n := by
  induction l₁ generalizing n with
  | nil => simp at h; simp [h]
  | cons a l ih =>
    cases n with
    | zero => rfl
    | succ m => simp only [List.cons_append, List.take_succ_cons, ih m (by simpa using h)]

theorem drop_append_add {α : Type} (l₁ l₂ : List α) (n m : Nat)
    (h : l₁.length = n) : (l₁ ++ l₂).drop (n + m) = l₂.drop m := by
  induction l₁ generalizing n with
  | nil => subst h; simp
  | cons a l ih =>
    subst h
    simp only [List.cons_append, List.length_cons]
    have : l.length + 1 + m = (l.length + m) + 1 := by omega
    rw [this, List.drop_succ_cons, ih (l.length) rfl]

theorem take_all_of_length_eq {α : Type} (l : List α) (n : Nat)
    (h : l.length = n) : l.take n = l := by
  subst h; exact List.take_length l

theorem beBytes_fromBeBytes_of_length (l : List Nat) (n : Nat)
    (h : l.length = n) (hb : ∀ b ∈ l, b < 256) :
    beBytes n (fromBeBytes l) = l := by
  subst h; exact beBytes_fromBeBytes l hb

theorem u128_bound_as_bytes : (2 : Nat) ^ 128 = 256 ^ 16 := by norm_num

theorem u64_bound_as_bytes : (2 : Nat) ^ 64 = 256 ^ 8 := by norm_num

/-- Splitting off one 16-byte chunk of a byte buffer. -/
theorem drop_take16_append (bytes : List Nat) (k : Nat) :
    (bytes.drop k).take 16 ++ bytes.drop (k + 16) = bytes.drop k := by
  have h1 : (bytes.drop k).drop 16 = bytes.drop (k + 16) := by
    rw [List.drop_drop, Nat.add_comm]
  rw [← h1]
  exact List.take_append_drop 16 (bytes.drop k)


/-! ## Claims -/

/-- C1: for every 64-byte array `b`, `from_be_bytes(b).to_be_bytes() == b`,
and for every identifier `e`, `from_be_bytes(e.to_be_bytes()) == e`:
`from_be_bytes` partitions `b` into 4 contiguous 16-byte big-endian chunks
decoded as u128 values and is the exact inverse of `to_be_bytes`. -/
theorem c1_bytes_roundtrip :
    (∀ bytes : List Nat, bytes.length = 64 → (∀ b ∈ bytes, b < 256) →
      (Euui.from_be_bytes bytes).to_be_bytes = bytes) ∧
    (∀ e : Euui, e.Valid → Euui.from_be_bytes e.to_be_bytes = e) := by
  constructor
  · intro bytes hlen hb
    have hmem : ∀ k : Nat, ∀ b ∈ (bytes.drop k).take 16, b < 256 := fun k b hbm =>
      hb b (List.mem_of_mem_drop (List.mem_of_mem_take hbm))
    have hchunk : ∀ k : Nat, k + 16 ≤ 64 →
        beBytes 16 (fromBeBytes ((bytes.drop k).take 16)) = (bytes.drop k).take 16 := by
      intro k hk
      refine beBytes_fromBeBytes_of_length _ _ ?_ (hmem k)
      simp only [List.length_take, List.length_drop, hlen]
      omega
    have h0 := hchunk 0 (by omega)
    have h16 := hchunk 16 (by omega)
    have h32 := hchunk 32 (by omega)
    have h48 := hchunk 48 (by omega)
    simp only [List.drop_zero] at h0
    have hd48 : (bytes.drop 48).take 16 = bytes.drop 48 :=
      take_all_of_length_eq _ _ (by simp [hlen])
    have s32 : (bytes.drop 32).take 16 ++ bytes.drop 48 = bytes.drop 32 := by
      have := drop_take16_append bytes 32
      norm_num at this
      exact this
    have s16 : (bytes.drop 16).take 16 ++ bytes.drop 32 = bytes.drop 16 := by
      have := drop_take16_append bytes 16
      norm_num at this
      exact this
    have s0 : bytes.take 16 ++ bytes.drop 16 = bytes := List.take_append_drop 16 bytes
    show beBytes 16 (fromBeBytes ((bytes.drop (0 * 16)).take 16))
        ++ beBytes 16 (fromBeBytes ((bytes.drop (1 * 16)).take 16))
        ++ beBytes 16 (fromBeBytes ((bytes.drop (2 * 16)).take 16))
        ++ beBytes 16 (fromBeBytes ((bytes.drop (3 * 16)).take 16)) = bytes
    norm_num
    rw [h0, h16, h32, h48, hd48, s32, s16, s0]
  · intro e hv
    obtain ⟨g0, g1, g2, g3⟩ := e
    obtain ⟨hv0, hv1, hv2, hv3⟩ := hv
    have hA : ∀ x : Nat, (beBytes 16 x).length = 16 := fun x => beBytes_length 16 x
    have t0 : ((Euui.mk g0 g1 g2 g3).to_be_bytes.drop (0 * 16)).take 16 = beBytes 16 g0 := by
      simp only [Euui.to_be_bytes, Nat.zero_mul, List.drop_zero, List.append_assoc]
      exact take_append_of_length_eq _ _ _ (hA g0)
    have t1 : ((Euui.mk g0 g1 g2 g3).to_be_bytes.drop (1 * 16)).take 16 = beBytes 16 g1 := by
      simp only [Euui.to_be_bytes, Nat.one_mul, List.append_assoc]
      rw [drop_append_of_length_eq _ _ _ (hA g0)]
      exact take_append_of_length_eq _ _ _ (hA g1)
    have t2 : ((Euui.mk g0 g1 g2 g3).to_be_bytes.drop (2 * 16)).take 16 = beBytes 16 g2 := by
      simp only [Euui.to_be_bytes, List.append_assoc]
      norm_num
      rw [show (32 : Nat) = 16 + 16 from rfl, drop_append_add _ _ _ _ (hA g0),
        drop_append_of_length_eq _ _ _ (hA g1)]
      exact take_append_of_length_eq _ _ _ (hA g2)
    have t3 : ((Euui.mk g0 g1 g2 g3).to_be_bytes.drop (3 * 16)).take 16 = beBytes 16 g3 := by
      simp only [Euui.to_be_bytes, List.append_assoc]
      norm_num
      rw [show (48 : Nat) = 16 + 32 from rfl, drop_append_add _ _ _ _ (hA g0),
        show (32 : Nat) = 16 + 16 from rfl, drop_append_add _ _ _ _ (hA g1),
        drop_append_of_length_eq _ _ _ (hA g2)]
      exact take_all_of_length_eq _ _ (hA g3)
    show Euui.mk
        (fromBeBytes (((Euui.mk g0 g1 g2 g3).to_be_bytes.drop (0 * 16)).take 16))
        (fromBeBytes (((Euui.mk g0 g1 g2 g3).to_be_bytes.drop (1 * 16)).take 16))
        (fromBeBytes (((Euui.mk g0 g1 g2 g3).to_be_bytes.drop (2 * 16)).take 16))
        (fromBeBytes (((Euui.mk g0 g1 g2 g3).to_be_bytes.drop (3 * 16)).take 16))
        = Euui.mk g0 g1 g2 g3
    rw [t0, t1, t2, t3,
      fromBeBytes_beBytes 16 g0 (u128_bound_as_bytes ▸ hv0),
      fromBeBytes_beBytes 16 g1 (u128_bound_as_bytes ▸ hv1),
      fromBeBytes_beBytes 16 g2 (u128_bound_as_bytes ▸ hv2),
      fromBeBytes_beBytes 16 g3 (u128_bound_as_bytes ▸ hv3)]

/-- C1 witness: the round-trip at the concrete buffer `0,1,...,63` and at
the identifier with segments `1,2,3,4`. -/
theorem c1_bytes_roundtrip_witness :
    (Euui.from_be_bytes (List.range 64)).to_be_bytes = List.range 64 ∧
    Euui.from_be_bytes (Euui.from_be_guids 1 2 3 4).to_be_bytes = Euui.from_be_guids 1 2 3 4 :=
  ⟨c1_bytes_roundtrip.1 (List.range 64) (by decide) (by decide),
   c1_bytes_roundtrip.2 (Euui.from_be_guids 1 2 3 4) (by decide)⟩

/-- One segment built from two 64-bit words splits back into those words. -/
theorem seg_of_two_longs (a b : Nat) (ha : a < 2 ^ 64) (hb : b < 2 ^ 64) :
    fromBeBytes ((beBytes 16 (fromBeBytes (beBytes 8 a ++ beBytes 8 b))).take 8) = a ∧
    fromBeBytes ((beBytes 16 (fromBeBytes (beBytes 8 a ++ beBytes 8 b))).drop 8) = b := by
  have hlen : (beBytes 8 a ++ beBytes 8 b).length = 16 := by simp [beBytes_length]
  have hmem : ∀ d ∈ beBytes 8 a ++ beBytes 8 b, d < 256 := by
    intro d hd
    rcases List.mem_append.mp hd with h | h
    exacts [beBytes_lt 8 a d h, beBytes_lt 8 b d h]
  have h16 : beBytes 16 (fromBeBytes (beBytes 8 a ++ beBytes 8 b)) = beBytes 8 a ++ beBytes 8 b :=
    beBytes_fromBeBytes_of_length _ _ hlen hmem
  rw [h16]
  constructor
  · rw [take_append_of_length_eq _ _ _ (beBytes_length 8 a)]
    exact fromBeBytes_beBytes 8 a (u64_bound_as_bytes ▸ ha)
  · rw [drop_append_of_length_eq _ _ _ (beBytes_length 8 a)]
    exact fromBeBytes_beBytes 8 b (u64_bound_as_bytes ▸ hb)

/-- A segment split into its two 64-bit halves reassembles to itself. -/
theorem rebuild_segment (g : Nat) (hg : g < 2 ^ 128) :
    fromBeBytes (beBytes 8 (fromBeBytes ((beBytes 16 g).take 8))
      ++ beBytes 8 (fromBeBytes ((beBytes 16 g).drop 8))) = g := by
  have ht : beBytes 8 (fromBeBytes ((beBytes 16 g).take 8)) = (beBytes 16 g).take 8 :=
    beBytes_fromBeBytes_of_length _ _ (by simp [List.length_take, beBytes_length])
      (fun d hd => beBytes_lt 16 g d (List.mem_of_mem_take hd))
  have hd : beBytes 8 (fromBeBytes ((beBytes 16 g).drop 8)) = (beBytes 16 g).drop 8 :=
    beBytes_fromBeBytes_of_length _ _ (by simp [List.length_drop, beBytes_length])
      (fun d hdm => beBytes_lt 16 g d (List.mem_of_mem_drop hdm))
  rw [ht, hd, List.take_append_drop]
  exact fromBeBytes_beBytes 16 g (u128_bound_as_bytes ▸ hg)

/-- `from_be_longs` on an 8-element array, with the indexing steps
computed out. -/
theorem from_be_longs_eq (w0 w1 w2 w3 w4 w5 w6 w7 : Nat) :
    Euui.from_be_longs [w0, w1, w2, w3, w4, w5, w6, w7] =
      ⟨fromBeBytes (beBytes 8 w0 ++ beBytes 8 w1),
       fromBeBytes (beBytes 8 w2 ++ beBytes 8 w3),
       fromBeBytes (beBytes 8 w4 ++ beBytes 8 w5),
       fromBeBytes (beBytes 8 w6 ++ beBytes 8 w7)⟩ := rfl

/-- C2: for every array `w` of 8 u64 values,
`from_be_longs(w).to_be_longs() == w`, and for every identifier `e`,
`from_be_longs(e.to_be_longs()) == e`: `from_be_longs` pairs words `2i`
and `2i+1` so that word `2i` forms the high 8 bytes and word `2i+1` the
low 8 bytes of segment `i`, and is the exact inverse of `to_be_longs`. -/
theorem c2_longs_roundtrip :
    (∀ w0 w1 w2 w3 w4 w5 w6 w7 : Nat,
      w0 < 2 ^ 64 → w1 < 2 ^ 64 → w2 < 2 ^ 64 → w3 < 2 ^ 64 →
      w4 < 2 ^ 64 → w5 < 2 ^ 64 → w6 < 2 ^ 64 → w7 < 2 ^ 64 →
      (Euui.from_be_longs [w0, w1, w2, w3, w4, w5, w6, w7]).to_be_longs
        = [w0, w1, w2, w3, w4, w5, w6, w7]) ∧
    (∀ e : Euui, e.Valid → Euui.from_be_longs e.to_be_longs = e) := by
  constructor
  · intro w0 w1 w2 w3 w4 w5 w6 w7 h0 h1 h2 h3 h4 h5 h6 h7
    rw [from_be_longs_eq]
    show [fromBeBytes ((beBytes 16 (fromBeBytes (beBytes 8 w0 ++ beBytes 8 w1))).take 8),
          fromBeBytes ((beBytes 16 (fromBeBytes (beBytes 8 w0 ++ beBytes 8 w1))).drop 8),
          fromBeBytes ((beBytes 16 (fromBeBytes (beBytes 8 w2 ++ beBytes 8 w3))).take 8),
          fromBeBytes ((beBytes 16 (fromBeBytes (beBytes 8 w2 ++ beBytes 8 w3))).drop 8),
          fromBeBytes ((beBytes 16 (fromBeBytes (beBytes 8 w4 ++ beBytes 8 w5))).take 8),
          fromBeBytes ((beBytes 16 (fromBeBytes (beBytes 8 w4 ++ beBytes 8 w5))).drop 8),
          fromBeBytes ((beBytes 16 (fromBeBytes (beBytes 8 w6 ++ beBytes 8 w7))).take 8),
          fromBeBytes ((beBytes 16 (fromBeBytes (beBytes 8 w6 ++ beBytes 8 w7))).drop 8)]
        = [w0, w1, w2, w3, w4, w5, w6, w7]
    rw [(seg_of_two_longs w0 w1 h0 h1).1, (seg_of_two_longs w0 w1 h0 h1).2,
      (seg_of_two_longs w2 w3 h2 h3).1, (seg_of_two_longs w2 w3 h2 h3).2,
      (seg_of_two_longs w4 w5 h4 h5).1, (seg_of_two_longs w4 w5 h4 h5).2,
      (seg_of_two_longs w6 w7 h6 h7).1, (seg_of_two_longs w6 w7 h6 h7).2]
  · intro e hv
    obtain ⟨g0, g1, g2, g3⟩ := e
    obtain ⟨hv0, hv1, hv2, hv3⟩ := hv
    have hlist : Euui.to_be_longs ⟨g0, g1, g2, g3⟩ =
        [fromBeBytes ((beBytes 16 g0).take 8), fromBeBytes ((beBytes 16 g0).drop 8),
         fromBeBytes ((beBytes 16 g1).take 8), fromBeBytes ((beBytes 16 g1).drop 8),
         fromBeBytes ((beBytes 16 g2).take 8), fromBeBytes ((beBytes 16 g2).drop 8),
         fromBeBytes ((beBytes 16 g3).take 8), fromBeBytes ((beBytes 16 g3).drop 8)] := rfl
    rw [hlist, from_be_longs_eq, rebuild_segment g0 hv0, rebuild_segment g1 hv1,
      rebuild_segment g2 hv2, rebuild_segment g3 hv3]

/-- C2 witness: the round-trip at the concrete word array `1..8` and at
the identifier with segments `1,2,3,4`. -/
theorem c2_longs_roundtrip_witness :
    (Euui.from_be_longs [1, 2, 3, 4, 5, 6, 7, 8]).to_be_longs = [1, 2, 3, 4, 5, 6, 7, 8] ∧
    Euui.from_be_longs (Euui.from_be_guids 1 2 3 4).to_be_longs = Euui.from_be_guids 1 2 3 4 :=
  ⟨c2_longs_roundtrip.1 1 2 3 4 5 6 7 8 (by decide) (by decide) (by decide) (by decide)
      (by decide) (by decide) (by decide) (by decide),
   c2_longs_roundtrip.2 (Euui.from_be_guids 1 2 3 4) (by decide)⟩

/-- Taking the first or second 8-byte half out of a leading 16-byte
chunk of a buffer. -/
theorem pair_slices (l rest : List Nat) (h : l.length = 16) :
    (l ++ rest).take 8 = l.take 8 ∧ ((l ++ rest).drop 8).take 8 = l.drop 8 := by
  constructor
  · exact take_append_of_le_length l rest 8 (by omega)
  · have hdrop : (l ++ rest).drop 8 = l.drop 8 ++ rest := by
      rw [List.drop_append_eq_append_drop, h]
      norm_num
    rw [hdrop]
    exact take_append_of_length_eq _ _ _ (by simp [h])

/-- The eight 8-byte slices of a 64-byte buffer built from four 16-byte
chunks. -/
theorem four_chunk_slices (A B C D : List Nat)
    (hA : A.length = 16) (hB : B.length = 16) (hC : C.length = 16) (hD : D.length = 16) :
    (A ++ (B ++ (C ++ D))).take 8 = A.take 8 ∧
    ((A ++ (B ++ (C ++ D))).drop 8).take 8 = A.drop 8 ∧
    ((A ++ (B ++ (C ++ D))).drop 16).take 8 = B.take 8 ∧
    ((A ++ (B ++ (C ++ D))).drop 24).take 8 = B.drop 8 ∧
    ((A ++ (B ++ (C ++ D))).drop 32).take 8 = C.take 8 ∧
    ((A ++ (B ++ (C ++ D))).drop 40).take 8 = C.drop 8 ∧
    ((A ++ (B ++ (C ++ D))).drop 48).take 8 = D.take 8 ∧
    ((A ++ (B ++ (C ++ D))).drop 56).take 8 = D.drop 8 := by
  have d16 : (A ++ (B ++ (C ++ D))).drop 16 = B ++ (C ++ D) :=
    drop_append_of_length_eq _ _ _ hA
  have d24 : (A ++ (B ++ (C ++ D))).drop 24 = (B ++ (C ++ D)).drop 8 := by
    have h1 := drop_append_add A (B ++ (C ++ D)) 16 8 hA
    norm_num at h1
    exact h1
  have d32 : (A ++ (B ++ (C ++ D))).drop 32 = C ++ D := by
    have h1 := drop_append_add A (B ++ (C ++ D)) 16 16 hA
    norm_num at h1
    rw [h1]
    exact drop_append_of_length_eq _ _ _ hB
  have d40 : (A ++ (B ++ (C ++ D))).drop 40 = (C ++ D).drop 8 := by
    have h1 := drop_append_add A (B ++ (C ++ D)) 16 24 hA
    have h2 := drop_append_add B (C ++ D) 16 8 hB
    norm_num at h1 h2
    rw [h1, h2]
  have d48 : (A ++ (B ++ (C ++ D))).drop 48 = D := by
    have h1 := drop_append_add A (B ++ (C ++ D)) 16 32 hA
    have h2 := drop_append_add B (C ++ D) 16 16 hB
    norm_num at h1 h2
    rw [h1, h2]
    exact drop_append_of_length_eq _ _ _ hC
  have d56 : (A ++ (B ++ (C ++ D))).drop 56 = D.drop 8 := by
    have h1 := drop_append_add A (B ++ (C ++ D)) 16 40 hA
    have h2 := drop_append_add B (C ++ D) 16 24 hB
    have h3 := drop_append_add C D 16 8 hC
    norm_num at h1 h2 h3
    rw [h1, h2, h3]
  refine ⟨(pair_slices A _ hA).1, (pair_slices A _ hA).2, ?_, ?_, ?_, ?_, ?_, ?_⟩
  · rw [d16]; exact (pair_slices B _ hB).1
  · rw [d24]; exact (pair_slices B _ hB).2
  · rw [d32]; exact (pair_slices C _ hC).1
  · rw [d40]; exact (pair_slices C _ hC).2
  · rw [d48]
  · rw [d56]; exact take_all_of_length_eq _ _ (by simp [hD])

/-- C3: for every identifier, the three index views decompose
consistently from the segment array: for `i < 8`, `u64(i)` is the
big-endian interpretation of bytes `[i*8, i*8+8)` of `to_be_bytes()`;
equivalently `u64(2*i)` is the high 8 bytes and `u64(2*i+1)` the low 8
bytes of segment `i`; and for `i < 64`, `u8(i)` is byte `i % 16` of the
big-endian representation of segment `i / 16`. -/
theorem c3_index_views (e : Euui) :
    (∀ i, i < 8 →
      e.u64 i = some (fromBeBytes ((e.to_be_bytes.drop (i * 8)).take 8))) ∧
    (∀ i, i < 4 →
      e.u64 (2 * i) = some (fromBeBytes ((beBytes 16 (e.seg i)).take 8)) ∧
      e.u64 (2 * i + 1) = some (fromBeBytes ((beBytes 16 (e.seg i)).drop 8))) ∧
    (∀ i, i < 64 →
      e.u8 i = some ((beBytes 16 (e.seg (i / 16))).getD (i % 16) 0)) := by
  refine ⟨?_, ?_, ?_⟩
  · intro i hi
    simp only [Euui.u64]
    rw [if_neg (by omega)]
  · obtain ⟨g0, g1, g2, g3⟩ := e
    have hS := four_chunk_slices (beBytes 16 g0) (beBytes 16 g1) (beBytes 16 g2) (beBytes 16 g3)
      (beBytes_length 16 g0) (beBytes_length 16 g1) (beBytes_length 16 g2) (beBytes_length 16 g3)
    obtain ⟨s0, s1, s2, s3, s4, s5, s6, s7⟩ := hS
    intro i hi
    interval_cases i <;> refine ⟨?_, ?_⟩ <;>
      · simp only [Euui.u64, Euui.to_be_bytes, Euui.seg]
        rw [if_neg (by norm_num)]
        norm_num
        first
        | rw [s0] | rw [s1] | rw [s2] | rw [s3]
        | rw [s4] | rw [s5] | rw [s6] | rw [s7]
  · intro i hi
    have hout : ¬ i ≥ 4 * 16 := by omega
    have h4 : ¬ i / 16 ≥ 4 := by omega
    simp [Euui.u8, Euui.u128, hout, h4]

/-- C3 witness: the view decomposition at the identifier with segments
`1,2,3,4`, word indices `3` and `2·1, 2·1+1`, byte index `17`. -/
theorem c3_index_views_witness :
    (Euui.from_be_guids 1 2 3 4).u64 3
      = some (fromBeBytes ((((Euui.from_be_guids 1 2 3 4).to_be_bytes).drop (3 * 8)).take 8)) ∧
    (Euui.from_be_guids 1 2 3 4).u64 (2 * 1)
      = some (fromBeBytes ((beBytes 16 ((Euui.from_be_guids 1 2 3 4).seg 1)).take 8)) ∧
    (Euui.from_be_guids 1 2 3 4).u64 (2 * 1 + 1)
      = some (fromBeBytes ((beBytes 16 ((Euui.from_be_guids 1 2 3 4).seg 1)).drop 8)) ∧
    (Euui.from_be_guids 1 2 3 4).u8 17
      = some ((beBytes 16 ((Euui.from_be_guids 1 2 3 4).seg (17 / 16))).getD (17 % 16) 0) :=
  ⟨(c3_index_views (Euui.from_be_guids 1 2 3 4)).1 3 (by decide),
   ((c3_index_views (Euui.from_be_guids 1 2 3 4)).2.1 1 (by decide)).1,
   ((c3_index_views (Euui.from_be_guids 1 2 3 4)).2.1 1 (by decide)).2,
   (c3_index_views (Euui.from_be_guids 1 2 3 4)).2.2 17 (by decide)⟩

/-- C4: each indexed accessor returns `none` exactly when its index is
out of range: `u128(i)` is `none` iff `i ≥ 4`, `u64(i)` iff `i ≥ 8`,
`u8(i)` iff `i ≥ 64`, `uuid(i)` iff `i ≥ 4`; in particular
`u128(4)`, `u64(8)`, `u8(64)` and `uuid(4)` are all `none`. -/
theorem c4_accessor_bounds (e : Euui) (i : Nat) :
    (e.u128 i = none ↔ 4 ≤ i) ∧
    (e.u64 i = none ↔ 8 ≤ i) ∧
    (e.u8 i = none ↔ 64 ≤ i) ∧
    (e.uuid i = none ↔ 4 ≤ i) ∧
    e.u128 4 = none ∧ e.u64 8 = none ∧ e.u8 64 = none ∧ e.uuid 4 = none := by
  refine ⟨?_, ?_, ?_, ?_, ?_, ?_, ?_, ?_⟩
  · by_cases h : 4 ≤ i <;> simp [Euui.u128, h]
  · by_cases h : 8 ≤ i <;> simp [Euui.u64, h]
  · by_cases h : 64 ≤ i <;> simp [Euui.u8, h]
  · by_cases h : 4 ≤ i <;> simp [Euui.uuid, Euui.u128, h]
  · simp [Euui.u128]
  · simp [Euui.u64]
  · simp [Euui.u8]
  · simp [Euui.uuid, Euui.u128]

/-- Characters outside the hexadecimal alphabet never occur in a
fixed-width hexadecimal rendering. -/
theorem hexChars_count_eq_zero (c : Char) (hc : c ∉ lowerHexDigits) (n x : Nat) :
    (hexChars n x).count c = 0 :=
  List.count_eq_zero.mpr fun h => hc (hexChars_mem n x c h)

/-- C5: `format()` is exactly
`"{s0:032x}-{s1:032x}\n{s2:032x}-{s3:032x}"`: total length 131, the
character data is the four 32-digit lowercase-hex groups joined by a
hyphen, a single line feed, and a hyphen, and `fromSegments([1,2,3,4])`
formats to the two 65-character lines of the specification example. -/
theorem c5_format (e : Euui) :
    e.format.length = 131 ∧
    e.format.data = hexChars 32 e.g0
      ++ ('-' :: (hexChars 32 e.g1
      ++ ('\n' :: (hexChars 32 e.g2
      ++ ('-' :: hexChars 32 e.g3))))) ∧
    e.format.data.count '\n' = 1 ∧
    (∀ c ∈ e.format.data, c ∈ '\n' :: '-' :: lowerHexDigits) ∧
    (Euui.from_be_guids 1 2 3 4).format =
      "00000000000000000000000000000001-00000000000000000000000000000002\n00000000000000000000000000000003-00000000000000000000000000000004" := by
  have hdata : e.format.data = hexChars 32 e.g0
      ++ ('-' :: (hexChars 32 e.g1
      ++ ('\n' :: (hexChars 32 e.g2
      ++ ('-' :: hexChars 32 e.g3))))) := by
    simp only [Euui.format, String.data_append, List.append_assoc,
      show "-".data = ['-'] from rfl, show "\n".data = ['\n'] from rfl,
      List.singleton_append, List.cons_append, List.nil_append]
  have hnl : ∀ n x : Nat, (hexChars n x).count '\n' = 0 :=
    fun n x => hexChars_count_eq_zero '\n' (by decide) n x
  refine ⟨?_, hdata, ?_, ?_, ?_⟩
  · show e.format.data.length = 131
    rw [hdata]
    simp [hexChars_length]
  · rw [hdata]
    simp [List.count_append, List.count_cons, hnl]
  · intro c hc
    rw [hdata] at hc
    simp only [List.mem_append, List.mem_cons] at hc
    simp only [List.mem_cons]
    rcases hc with h | h | h | h | h | h | h
    · exact Or.inr (Or.inr (hexChars_mem _ _ _ h))
    · exact Or.inr (Or.inl h)
    · exact Or.inr (Or.inr (hexChars_mem _ _ _ h))
    · exact Or.inl h
    · exact Or.inr (Or.inr (hexChars_mem _ _ _ h))
    · exact Or.inr (Or.inl h)
    · exact Or.inr (Or.inr (hexChars_mem _ _ _ h))
  · decide

/-- C5 witness: the charset clause instantiated at `zero` and the
character `'0'`. -/
theorem c5_format_witness : '0' ∈ '\n' :: '-' :: lowerHexDigits :=
  (c5_format Euui.zero).2.2.2.1 '0' (by decide)

/-- C6: the textual conversion (`Display` / `to_string`) is the four
segments concatenated with no separator, each lowercase hexadecimal
zero-padded to 32 characters — exactly 128 characters, all from the hex
alphabet (hence no line breaks) — `zero()` renders as 128 `'0'`
characters, and `fromSegments([1,2,3,4])` as the four padded groups
concatenated. -/
theorem c6_to_string (e : Euui) :
    (Euui.toString e).length = 128 ∧
    (Euui.toString e).data = hexChars 32 e.g0
      ++ (hexChars 32 e.g1 ++ (hexChars 32 e.g2 ++ hexChars 32 e.g3)) ∧
    (∀ c ∈ (Euui.toString e).data, c ∈ lowerHexDigits) ∧
    Euui.toString Euui.zero = String.mk (List.replicate 128 '0') ∧
    Euui.toString (Euui.from_be_guids 1 2 3 4) =
      "00000000000000000000000000000001000000000000000000000000000000020000000000000000000000000000000300000000000000000000000000000004" := by
  have hdata : (Euui.toString e).data = hexChars 32 e.g0
      ++ (hexChars 32 e.g1 ++ (hexChars 32 e.g2 ++ hexChars 32 e.g3)) := by
    simp only [Euui.toString, String.data_append, List.append_assoc]
  refine ⟨?_, hdata, ?_, ?_, ?_⟩
  · show (Euui.toString e).data.length = 128
    rw [hdata]
    simp [hexChars_length]
  · intro c hc
    rw [hdata] at hc
    simp only [List.mem_append] at hc
    rcases hc with h | h | h | h <;> exact hexChars_mem _ _ _ h
  · decide
  · decide

/-- C6 witness: the charset clause instantiated at `zero` and the
character `'0'`. -/
theorem c6_to_string_witness : '0' ∈ lowerHexDigits :=
  (c6_to_string Euui.zero).2.2.1 '0' (by decide)

/-- C7: `with_uuid_part(uuid, part)` panics (embedded as `none`) exactly
when `part > 3`; when `part ≤ 3` it returns a new identifier whose
segment `part` equals the UUID's 128-bit value and whose other segments
are those of the receiver, which is not mutated (the embedding is a pure
function of the receiver). -/
theorem c7_with_uuid_part (e : Euui) (u : Uuid) (part : Nat) :
    (e.with_uuid_part u part = none ↔ part > 3) ∧
    (part ≤ 3 →
      e.with_uuid_part u part = some (e.setSeg part u.as_u128) ∧
      (e.setSeg part u.as_u128).seg part = u.as_u128 ∧
      ∀ j, j < 4 → j ≠ part → (e.setSeg part u.as_u128).seg j = e.seg j) := by
  constructor
  · by_cases h : part > 3 <;> simp [Euui.with_uuid_part, h]
  · intro hle
    refine ⟨by simp [Euui.with_uuid_part, Nat.not_lt.mpr hle], ?_, ?_⟩
    · interval_cases part <;> simp [Euui.setSeg, Euui.seg]
    · intro j hj hne
      interval_cases part <;> interval_cases j <;>
        simp_all [Euui.setSeg, Euui.seg]

/-- C7 witness: inserting UUID value 7 at position 2 of `zero`. -/
theorem c7_with_uuid_part_witness :
    Euui.zero.with_uuid_part (Uuid.from_u128 7) 2
      = some (Euui.zero.setSeg 2 (Uuid.from_u128 7).as_u128) ∧
    (Euui.zero.setSeg 2 (Uuid.from_u128 7).as_u128).seg 2 = (Uuid.from_u128 7).as_u128 ∧
    (Euui.zero.setSeg 2 (Uuid.from_u128 7).as_u128).seg 1 = Euui.zero.seg 1 :=
  ⟨((c7_with_uuid_part Euui.zero (Uuid.from_u128 7) 2).2 (by decide)).1,
   ((c7_with_uuid_part Euui.zero (Uuid.from_u128 7) 2).2 (by decide)).2.1,
   ((c7_with_uuid_part Euui.zero (Uuid.from_u128 7) 2).2 (by decide)).2.2 1 (by decide) (by decide)⟩

/-- C8: `with_first(u)` fixes segment 0 to the UUID's 128-bit value and
leaves segments 1, 2, 3 unchanged from the receiver; likewise
`with_second`, `with_third` and `with_fourth` fix only position 1, 2, 3
respectively. -/
theorem c8_with_wrappers (e : Euui) (u : Uuid) :
    e.with_first u = some ⟨u.as_u128, e.g1, e.g2, e.g3⟩ ∧
    e.with_second u = some ⟨e.g0, u.as_u128, e.g2, e.g3⟩ ∧
    e.with_third u = some ⟨e.g0, e.g1, u.as_u128, e.g3⟩ ∧
    e.with_fourth u = some ⟨e.g0, e.g1, e.g2, u.as_u128⟩ := by
  obtain ⟨g0, g1, g2, g3⟩ := e
  exact ⟨rfl, rfl, rfl, rfl⟩

/-- C9: each `regenerate` variant returns a new identifier equal to the
receiver in all segments except the regenerated position, which carries
the freshly drawn value `r`; the receiver is not mutated (the embedding
is a pure function of the receiver). -/
theorem c9_regenerate (e : Euui) (r : Nat) :
    ((e.regenerate_first r).u128 0 = some r ∧
      ∀ j, j < 4 → j ≠ 0 → (e.regenerate_first r).u128 j = e.u128 j) ∧
    ((e.regenerate_second r).u128 1 = some r ∧
      ∀ j, j < 4 → j ≠ 1 → (e.regenerate_second r).u128 j = e.u128 j) ∧
    ((e.regenerate_third r).u128 2 = some r ∧
      ∀ j, j < 4 → j ≠ 2 → (e.regenerate_third r).u128 j = e.u128 j) ∧
    ((e.regenerate_fourth r).u128 3 = some r ∧
      ∀ j, j < 4 → j ≠ 3 → (e.regenerate_fourth r).u128 j = e.u128 j) := by
  refine ⟨⟨rfl, ?_⟩, ⟨rfl, ?_⟩, ⟨rfl, ?_⟩, ⟨rfl, ?_⟩⟩ <;>
    · intro j hj hne
      interval_cases j <;>
        simp_all [Euui.regenerate_first, Euui.regenerate_second,
          Euui.regenerate_third, Euui.regenerate_fourth, Euui.u128, Euui.seg]

/-- C9 witness: regenerating segment 0 of the identifier `1,2,3,4` with
the drawn value 9 keeps segment 2. -/
theorem c9_regenerate_witness :
    ((Euui.from_be_guids 1 2 3 4).regenerate_first 9).u128 0 = some 9 ∧
    ((Euui.from_be_guids 1 2 3 4).regenerate_first 9).u128 2
      = (Euui.from_be_guids 1 2 3 4).u128 2 :=
  ⟨(c9_regenerate (Euui.from_be_guids 1 2 3 4) 9).1.1,
   (c9_regenerate (Euui.from_be_guids 1 2 3 4) 9).1.2 2 (by decide) (by decide)⟩

/-- C10: every accessor and serialization operation is total: the
serializers produce their full fixed-size outputs, every in-range query
returns a value, and the slices handed to the `expect("Logic error")`
conversions in `from_be_bytes`, `u64` and `to_be_longs` always have
exactly the demanded length, so those failure branches are unreachable. -/
theorem c10_totality (e : Euui) :
    e.to_be_bytes.length = 64 ∧
    e.to_be_longs.length = 8 ∧
    e.to_be_guids.length = 4 ∧
    (∀ bytes : List Nat, bytes.length = 64 → ∀ i, i < 4 →
      ((bytes.drop (i * 16)).take 16).length = 16) ∧
    (∀ i, i < 8 → ((e.to_be_bytes.drop (i * 8)).take 8).length = 8) ∧
    (∀ i, i < 4 → ((beBytes 16 (e.seg i)).take 8).length = 8 ∧
      ((beBytes 16 (e.seg i)).drop 8).length = 8) ∧
    (∀ i, i < 4 → ∃ v, e.u128 i = some v) ∧
    (∀ i, i < 8 → ∃ v, e.u64 i = some v) ∧
    (∀ i, i < 64 → ∃ v, e.u8 i = some v) := by
  have hlen : e.to_be_bytes.length = 64 := by
    simp [Euui.to_be_bytes, beBytes_length]
  refine ⟨hlen, rfl, rfl, ?_, ?_, ?_, ?_, ?_, ?_⟩
  · intro bytes hb i hi
    simp only [List.length_take, List.length_drop, hb]
    omega
  · intro i hi
    simp only [List.length_take, List.length_drop, hlen]
    omega
  · intro i hi
    constructor <;> simp [List.length_take, List.length_drop, beBytes_length]
  · intro i hi
    exact ⟨e.seg i, by simp [Euui.u128, Nat.not_le.mpr hi]⟩
  · intro i hi
    exact ⟨fromBeBytes ((e.to_be_bytes.drop (i * 8)).take 8), by
      simp only [Euui.u64]
      rw [if_neg (by omega)]⟩
  · intro i hi
    exact ⟨(beBytes 16 ((e.u128 (i / 16)).getD 0)).getD (i % 16) 0, by
      simp only [Euui.u8]
      rw [if_neg (by omega)]⟩

/-- C10 witness: the length and totality clauses at the identifier
`1,2,3,4`, the buffer `0,...,63`, and in-range indices. -/
theorem c10_totality_witness :
    (((List.range 64).drop (2 * 16)).take 16).length = 16 ∧
    ((((Euui.from_be_guids 1 2 3 4).to_be_bytes).drop (5 * 8)).take 8).length = 8 ∧
    (∃ v, (Euui.from_be_guids 1 2 3 4).u128 3 = some v) ∧
    (∃ v, (Euui.from_be_guids 1 2 3 4).u64 7 = some v) ∧
    (∃ v, (Euui.from_be_guids 1 2 3 4).u8 63 = some v) :=
  ⟨(c10_totality (Euui.from_be_guids 1 2 3 4)).2.2.2.1 (List.range 64) (by decide) 2 (by decide),
   (c10_totality (Euui.from_be_guids 1 2 3 4)).2.2.2.2.1 5 (by decide),
   (c10_totality (Euui.from_be_guids 1 2 3 4)).2.2.2.2.2.2.1 3 (by decide),
   (c10_totality (Euui.from_be_guids 1 2 3 4)).2.2.2.2.2.2.2.1 7 (by decide),
   (c10_totality (Euui.from_be_guids 1 2 3 4)).2.2.2.2.2.2.2.2 63 (by decide)⟩
